import Mathlib

/-
Verification of the S-REITs dashboard repository: the technical-indicator
engine (src/analyzer.py), the fundamental-insight rules and portfolio
aggregation (src/main.py), and the name matching and sector aggregation
helpers (src/data_fetcher.py).

Numeric model: the Python code computes with numpy float64 values.  We
embed these as exact rationals extended with the two infinities and NaN
(`PyVal`), with IEEE-754 special-value propagation for the arithmetic the
code performs (elementwise pandas division by zero yields inf or NaN, it
does not raise).  Exact rational arithmetic stands in for binary64
arithmetic; none of the verified properties depends on binary rounding.
-/

set_option allowUnsafeReducibility true

attribute [semireducible] Rat.add Rat.sub Rat.mul Rat.div Rat.neg Rat.inv Rat.normalize Rat.blt Rat.floor Rat.ofScientific Rat.divInt mkRat Rat.ceil

set_option maxRecDepth 10000

namespace SReits

/-- Model of a numpy float64 value: a finite rational, +inf, -inf, or NaN. -/
inductive PyVal where
  | fin (q : ℚ)
  | pinf
  | ninf
  | nan
deriving DecidableEq

/-- IEEE negation. -/
def pvNeg : PyVal → PyVal
  | .fin q => .fin (-q)
  | .pinf => .ninf
  | .ninf => .pinf
  | .nan => .nan

/-- IEEE addition (inf + -inf = NaN, NaN propagates). -/
def pvAdd : PyVal → PyVal → PyVal
  | .fin a, .fin b => .fin (a + b)
  | .fin _, .pinf => .pinf
  | .fin _, .ninf => .ninf
  | .pinf, .fin _ => .pinf
  | .ninf, .fin _ => .ninf
  | .pinf, .pinf => .pinf
  | .ninf, .ninf => .ninf
  | _, _ => .nan

/-- IEEE subtraction. -/
def pvSub : PyVal → PyVal → PyVal
  | .fin a, .fin b => .fin (a - b)
  | .fin _, .pinf => .ninf
  | .fin _, .ninf => .pinf
  | .pinf, .fin _ => .pinf
  | .ninf, .fin _ => .ninf
  | .pinf, .ninf => .pinf
  | .ninf, .pinf => .ninf
  | _, _ => .nan

/-- IEEE multiplication (inf * 0 = NaN). -/
def pvMul : PyVal → PyVal → PyVal
  | .fin a, .fin b => .fin (a * b)
  | .fin a, .pinf => if 0 < a then .pinf else if a < 0 then .ninf else .nan
  | .fin a, .ninf => if 0 < a then .ninf else if a < 0 then .pinf else .nan
  | .pinf, .fin b => if 0 < b then .pinf else if b < 0 then .ninf else .nan
  | .ninf, .fin b => if 0 < b then .ninf else if b < 0 then .pinf else .nan
  | .pinf, .pinf => .pinf
  | .ninf, .ninf => .pinf
  | .pinf, .ninf => .ninf
  | .ninf, .pinf => .ninf
  | _, _ => .nan

/-- IEEE division as numpy performs it elementwise: x/0 is +-inf for
nonzero x and NaN for 0/0 (no exception is raised). -/
def pvDiv : PyVal → PyVal → PyVal
  | .fin a, .fin b =>
      if b = 0 then (if a = 0 then .nan else if 0 < a then .pinf else .ninf)
      else .fin (a / b)
  | .fin _, .pinf => .fin 0
  | .fin _, .ninf => .fin 0
  | .pinf, .fin b => if 0 ≤ b then .pinf else .ninf
  | .ninf, .fin b => if 0 ≤ b then .ninf else .pinf
  | _, _ => .nan

/-- IEEE comparison value > constant; false whenever the value is NaN. -/
def pvGtC : PyVal → ℚ → Bool
  | .fin a, c => decide (c < a)
  | .pinf, _ => true
  | _, _ => false

/-- IEEE comparison value < constant; false whenever the value is NaN. -/
def pvLtC : PyVal → ℚ → Bool
  | .fin a, c => decide (a < c)
  | .ninf, _ => true
  | _, _ => false

/-- IEEE comparison a > b; false whenever either side is NaN. -/
def pvGtV : PyVal → PyVal → Bool
  | .fin a, .fin b => decide (b < a)
  | .pinf, .fin _ => true
  | .pinf, .ninf => true
  | .fin _, .ninf => true
  | _, _ => false

/-- IEEE comparison a < b; false whenever either side is NaN. -/
def pvLtV : PyVal → PyVal → Bool
  | .fin a, .fin b => decide (a < b)
  | .ninf, .fin _ => true
  | .ninf, .pinf => true
  | .fin _, .pinf => true
  | _, _ => false

/-- Embeds pandas pd.isna: true exactly on NaN (infinities are not NA). -/
def isNa : PyVal → Bool
  | .nan => true
  | _ => false

/-- Round-half-to-even to an integer, the rounding used by the builtin
Python round function. -/
def roundHalfEven (x : ℚ) : ℤ :=
  let f := ⌊x⌋
  let r := x - f
  if r < 1 / 2 then f
  else if 1 / 2 < r then f + 1
  else if f % 2 = 0 then f else f + 1

/-- Python round(x, d) on an exact rational. -/
def roundQ (x : ℚ) (d : ℕ) : ℚ :=
  ((roundHalfEven (x * 10 ^ d) : ℚ)) / 10 ^ d

/-- Python round(v, d) on a float value: infinities and NaN pass through. -/
def pyRound : PyVal → ℕ → PyVal
  | .fin q, d => .fin (roundQ q d)
  | v, _ => v

/-- Embeds pandas Series.diff(): first entry NaN, then consecutive
differences. -/
def seriesDiff : List PyVal → List PyVal
  | [] => []
  | x :: xs => PyVal.nan :: List.zipWith pvSub xs (x :: xs)

/-- Mean of a window, with pandas semantics: a NaN inside the window makes
the sum (hence the mean) NaN; the empty window gives 0/0 = NaN. -/
def listMeanPv (l : List PyVal) : PyVal :=
  pvDiv (l.foldl pvAdd (.fin 0)) (.fin l.length)

/-- Embeds pandas Series.rolling(window=w).mean() with the default
min_periods = w: entry i is NaN until a full window of w rows ending at i
exists, and the mean of rows i+1-w .. i afterwards. -/
def rollingMean (w : ℕ) (xs : List PyVal) : List PyVal :=
  (List.range xs.length).map (fun i =>
    if w ≤ i + 1 then listMeanPv ((xs.drop (i + 1 - w)).take w) else PyVal.nan)

/-- Embeds delta.where(delta > 0, 0): keep positive entries, others
(including the leading NaN of diff) become 0. -/
def whereGtZero (d : PyVal) : PyVal := if pvGtC d 0 then d else .fin 0

/-- Embeds (-delta.where(delta < 0, 0)): keep negative entries, others
become 0, then negate. -/
def whereLtZeroNeg (d : PyVal) : PyVal := pvNeg (if pvLtC d 0 then d else .fin 0)

/-- Embeds calculate_rsi from src/analyzer.py lines 4-12:
delta = prices.diff(); gain/loss are rolling means of the clamped deltas;
rs = gain/loss; rsi = 100 - 100/(1+rs); the last rsi row is returned, and
50 only when the rsi series itself is empty. -/
def calculate_rsi (prices : List PyVal) (period : ℕ) : PyVal :=
  match ((List.zipWith pvDiv
            (rollingMean period ((seriesDiff prices).map whereGtZero))
            (rollingMean period ((seriesDiff prices).map whereLtZeroNeg))).map
          (fun r => pvSub (.fin 100) (pvDiv (.fin 100) (pvAdd (.fin 1) r)))).getLast? with
  | some v => v
  | none => .fin 50

/-- Embeds calculate_sma from src/analyzer.py lines 14-16. -/
def calculate_sma (prices : List PyVal) (period : ℕ) : List PyVal :=
  rollingMean period prices

/-- Result record of analyze_reit (src/analyzer.py lines 84-89). -/
structure IndicatorResult where
  change_pct : PyVal
  rsi : PyVal
  trend : String
  insights : List String
deriving DecidableEq

/-- The fixed degenerate result for a null or empty series
(src/analyzer.py lines 22-28). -/
def noDataResult : IndicatorResult :=
  ⟨.fin 0, .fin 50, "Neutral", ["No data available"]⟩

/-- Embeds the change-percentage computation of analyze_reit
(src/analyzer.py lines 32-38): with at least 5 closes, the change from the
close 5 periods ago, rounded to 2 decimals; otherwise 0. -/
def changePct (closes : List ℚ) : PyVal :=
  if 5 ≤ closes.length then
    pyRound (pvMul (pvDiv (.fin (closes.getLastD 0 - closes.getD (closes.length - 5) 0))
                          (.fin (closes.getD (closes.length - 5) 0))) (.fin 100)) 2
  else .fin 0

/-- Embeds src/analyzer.py lines 48-49: the last SMA row if it exists and
is not NaN, else the current close price. -/
def smaValueOf (closes : List ℚ) (period : ℕ) : PyVal :=
  if 0 < (calculate_sma (closes.map PyVal.fin) period).length
      ∧ isNa ((calculate_sma (closes.map PyVal.fin) period).getLastD PyVal.nan) = false
  then (calculate_sma (closes.map PyVal.fin) period).getLastD PyVal.nan
  else .fin (closes.getLastD 0)

/-- Embeds the trend classification of analyze_reit (src/analyzer.py lines
51-57). -/
def trendOf (closes : List ℚ) : String :=
  if pvGtV (.fin (closes.getLastD 0)) (smaValueOf closes 20)
      && pvGtV (.fin (closes.getLastD 0)) (smaValueOf closes 50) then "Bullish"
  else if pvLtV (.fin (closes.getLastD 0)) (smaValueOf closes 20)
      && pvLtV (.fin (closes.getLastD 0)) (smaValueOf closes 50) then "Bearish"
  else "Neutral"

/-- The rounded RSI field of analyze_reit (src/analyzer.py line 41). -/
def rsiOf (closes : List ℚ) : PyVal :=
  pyRound (calculate_rsi (closes.map PyVal.fin) 14) 1

/-- The RSI insight of analyze_reit (src/analyzer.py lines 63-68). -/
def rsiInsight (rsi : PyVal) : String :=
  if pvGtC rsi 70 then "Overbought (RSI > 70) - Overvaluation Risk"
  else if pvLtC rsi 30 then "Oversold (RSI < 30) - Potential Value"
  else "Trading within normal range"

/-- The trend insight of analyze_reit (src/analyzer.py lines 71-74). -/
def trendInsight (trend : String) : List String :=
  if trend = "Bullish" then ["Strong Uptrend (Above 20 & 50 SMA)"]
  else if trend = "Bearish" then ["Downtrend (Below 20 & 50 SMA)"]
  else []

/-- String rendering of a value inside an insight message.  This stands in
for the Python float formatting; the verified properties only concern
which insights appear and in which order, never the digits. -/
def pvStr : PyVal → String
  | .fin q => toString q
  | .pinf => "inf"
  | .ninf => "-inf"
  | .nan => "nan"

/-- The monthly change of analyze_reit (src/analyzer.py line 78). -/
def monthlyChange (closes : List ℚ) : PyVal :=
  pvMul (pvDiv (.fin (closes.getLastD 0 - closes.getD (closes.length - 20) 0))
               (.fin (closes.getD (closes.length - 20) 0)))
        (.fin 100)

/-- The momentum insight of analyze_reit (src/analyzer.py lines 77-82). -/
def momentumInsight (closes : List ℚ) : List String :=
  if 20 ≤ closes.length then
    if pvGtC (monthlyChange closes) 5 then
      ["Strong momentum (+" ++ pvStr (pyRound (monthlyChange closes) 1) ++ "% monthly)"]
    else if pvLtC (monthlyChange closes) (-5) then
      ["Weak momentum (" ++ pvStr (pyRound (monthlyChange closes) 1) ++ "% monthly)"]
    else []
  else []

/-- The body of analyze_reit for a non-empty close series
(src/analyzer.py lines 30-89). -/
def analyzeBody (closes : List ℚ) : IndicatorResult :=
  { change_pct := changePct closes
    rsi := rsiOf closes
    trend := trendOf closes
    insights := rsiInsight (rsiOf closes) :: (trendInsight (trendOf closes) ++ momentumInsight closes) }

/-- Embeds analyze_reit from src/analyzer.py lines 18-89.  The input is
the Close column of the history frame: None for a null frame, a (possibly
empty) list of closes otherwise. -/
def analyze_reit : Option (List ℚ) → IndicatorResult
  | none => noDataResult
  | some closes => if closes.isEmpty then noDataResult else analyzeBody closes

/-- analyze_reit applied to a non-empty series runs the main body. -/
theorem analyze_reit_some (closes : List ℚ) (h : closes ≠ []) :
    analyze_reit (some closes) = analyzeBody closes := by
  cases closes with
  | nil => exact absurd rfl h
  | cons c t => rfl

/-- C1: analyze_reit is a total function into IndicatorResult (its Lean
type is total by construction, mirroring that the Python never raises),
and on a null (None) history or an empty close series it returns exactly
the fixed degenerate result with change_pct 0, rsi 50, trend Neutral and
the single insight "No data available". -/
theorem analyze_reit_total_degenerate :
    analyze_reit none = noDataResult
    ∧ analyze_reit (some []) = noDataResult
    ∧ noDataResult =
        ⟨PyVal.fin 0, PyVal.fin 50, "Neutral", ["No data available"]⟩ := by
  exact ⟨rfl, rfl, rfl⟩

/-- The last element of a map over List.range. -/
theorem getLast?_map_range {α : Type} (f : ℕ → α) (n : ℕ) (h : n ≠ 0) :
    ((List.range n).map f).getLast? = some (f (n - 1)) := by
  cases n with
  | zero => exact absurd rfl h
  | succ m =>
    rw [List.range_succ, List.map_append]
    simp [List.getLast?_concat]

/-- The last row of a rolling mean: the mean of the trailing window when a
full window exists, NaN otherwise. -/
theorem rollingMean_getLastD (w : ℕ) (xs : List PyVal) (h : xs ≠ []) :
    (rollingMean w xs).getLastD PyVal.nan =
      if w ≤ xs.length then listMeanPv ((xs.drop (xs.length - w)).take w) else PyVal.nan := by
  have hn : xs.length ≠ 0 := fun h0 => h (List.length_eq_zero.mp h0)
  have hs : xs.length - 1 + 1 = xs.length := Nat.succ_pred_eq_of_pos (Nat.pos_of_ne_zero hn)
  unfold rollingMean
  rw [List.getLastD_eq_getLast?, getLast?_map_range _ _ hn]
  simp only [Option.getD_some]
  rw [hs]

/-- Evaluation chain used by changePct on finite values with a nonzero
denominator. -/
theorem pvDivMulRound (a b : ℚ) (hb : b ≠ 0) :
    pyRound (pvMul (pvDiv (.fin a) (.fin b)) (.fin 100)) 2 = .fin (roundQ (a / b * 100) 2) := by
  simp [pvDiv, pvMul, pyRound, hb]

/-- C4: with at least 5 closes (and a nonzero reference close, as the
PriceSeries invariant guarantees), change_pct is the percentage change
from the close 5 periods ago rounded to 2 decimals; with fewer than 5
closes it is 0. -/
theorem change_pct_spec :
    (∀ closes : List ℚ, 5 ≤ closes.length → closes.getD (closes.length - 5) 0 ≠ 0 →
      (analyze_reit (some closes)).change_pct =
        PyVal.fin (roundQ ((closes.getLastD 0 - closes.getD (closes.length - 5) 0)
          / closes.getD (closes.length - 5) 0 * 100) 2))
    ∧ (∀ closes : List ℚ, closes.length < 5 →
      (analyze_reit (some closes)).change_pct = PyVal.fin 0) := by
  constructor
  · intro closes h5 hnz
    have hne : closes ≠ [] := by
      intro h0
      rw [h0] at h5
      simp at h5
    rw [analyze_reit_some closes hne]
    show changePct closes = _
    unfold changePct
    rw [if_pos h5]
    exact pvDivMulRound _ _ hnz
  · intro closes hlt
    cases closes with
    | nil => rfl
    | cons c t =>
      rw [analyze_reit_some (c :: t) (by simp)]
      show changePct (c :: t) = _
      unfold changePct
      rw [if_neg (by omega)]

/-- C4 witness: a 5-point series with closes 100,100,100,100,110 yields
change_pct 10.0, and a 4-point series yields 0 regardless of movement. -/
theorem change_pct_spec_witness :
    (analyze_reit (some [100, 100, 100, 100, 110])).change_pct = PyVal.fin 10
    ∧ (analyze_reit (some [1, 9, 2, 8])).change_pct = PyVal.fin 0 :=
  ⟨(change_pct_spec.1 [100, 100, 100, 100, 110] (by decide) (by decide)).trans (by decide),
   change_pct_spec.2 [1, 9, 2, 8] (by decide)⟩

/-- C2 evaluation: on a constant series of 30 closes at 100 (the spec's
own example), and on a 3-point series (fewer than 15 closes), the rsi
field returned by analyze_reit is NaN, not the neutral default 50: the
substitute in calculate_rsi fires only for an empty series, so the NaN
produced by 0/0 (zero mean loss and zero mean gain) or by the incomplete
rolling window propagates through round and into the result. -/
theorem rsi_nan_on_degenerate_series :
    (analyze_reit (some (List.replicate 30 (100 : ℚ)))).rsi = PyVal.nan
    ∧ (analyze_reit (some [100, 101, 102])).rsi = PyVal.nan
    ∧ PyVal.nan ≠ PyVal.fin 50 := by
  refine ⟨by decide, by decide, by decide⟩

/-- C5: for a non-empty series with fewer than 50 closes the SMA-50 value
is substituted by the current close itself, therefore the strict Bullish
and Bearish comparisons cannot both hold and the trend is Neutral. -/
theorem short_series_sma_neutral (closes : List ℚ) (h1 : closes ≠ [])
    (h2 : closes.length < 50) :
    smaValueOf closes 50 = PyVal.fin (closes.getLastD 0)
    ∧ (analyze_reit (some closes)).trend = "Neutral" := by
  have hmapne : closes.map PyVal.fin ≠ [] := by simpa using h1
  have hlast : (calculate_sma (closes.map PyVal.fin) 50).getLastD PyVal.nan = PyVal.nan := by
    show (rollingMean 50 (closes.map PyVal.fin)).getLastD PyVal.nan = PyVal.nan
    rw [rollingMean_getLastD 50 _ hmapne, if_neg (by rw [List.length_map]; omega)]
  have hsma : smaValueOf closes 50 = PyVal.fin (closes.getLastD 0) := by
    unfold smaValueOf
    rw [hlast]
    simp [isNa]
  refine ⟨hsma, ?_⟩
  rw [analyze_reit_some closes h1]
  show trendOf closes = "Neutral"
  unfold trendOf
  rw [hsma]
  simp [pvGtV, pvLtV, lt_irrefl]

/-- C5 witness: a 2-point series is Neutral with the SMA-50 slot holding
the current close. -/
theorem short_series_sma_neutral_witness :
    smaValueOf [5, 6] 50 = PyVal.fin (([5, 6] : List ℚ).getLastD 0)
    ∧ (analyze_reit (some [5, 6])).trend = "Neutral" :=
  short_series_sma_neutral [5, 6] (by decide) (by decide)

/-- C3: for a non-empty series the insights list is exactly one RSI
insight chosen by the fixed thresholds, then the trend insight exactly
when the trend is Bullish or Bearish, then the momentum insight exactly
when at least 20 closes exist and the monthly change exceeds +5 or falls
below -5, in that fixed order. -/
theorem insights_structure (closes : List ℚ) (h : closes ≠ []) :
    (analyze_reit (some closes)).insights =
        rsiInsight (analyze_reit (some closes)).rsi
          :: (trendInsight (analyze_reit (some closes)).trend ++ momentumInsight closes)
    ∧ (pvGtC (analyze_reit (some closes)).rsi 70 = true →
        rsiInsight (analyze_reit (some closes)).rsi = "Overbought (RSI > 70) - Overvaluation Risk")
    ∧ (pvGtC (analyze_reit (some closes)).rsi 70 = false →
        pvLtC (analyze_reit (some closes)).rsi 30 = true →
        rsiInsight (analyze_reit (some closes)).rsi = "Oversold (RSI < 30) - Potential Value")
    ∧ (pvGtC (analyze_reit (some closes)).rsi 70 = false →
        pvLtC (analyze_reit (some closes)).rsi 30 = false →
        rsiInsight (analyze_reit (some closes)).rsi = "Trading within normal range")
    ∧ (trendInsight (analyze_reit (some closes)).trend ≠ [] ↔
        (analyze_reit (some closes)).trend = "Bullish"
          ∨ (analyze_reit (some closes)).trend = "Bearish")
    ∧ (momentumInsight closes ≠ [] ↔
        20 ≤ closes.length
          ∧ (pvGtC (monthlyChange closes) 5 = true
              ∨ pvLtC (monthlyChange closes) (-5) = true)) := by
  rw [analyze_reit_some closes h]
  refine ⟨rfl, ?_, ?_, ?_, ?_, ?_⟩
  · intro hgt
    simp [rsiInsight, hgt]
  · intro hgt hlt
    simp [rsiInsight, hgt, hlt]
  · intro hgt hlt
    simp [rsiInsight, hgt, hlt]
  · unfold trendInsight
    split_ifs with ht1 ht2 <;> simp_all
  · unfold momentumInsight
    split_ifs with h20 hgt hlt <;> simp_all

/-- C3 witness: the structure theorem applied to a concrete 3-point
series. -/
theorem insights_structure_witness :
    (analyze_reit (some [1, 2, 3])).insights =
      rsiInsight (analyze_reit (some [1, 2, 3])).rsi
        :: (trendInsight (analyze_reit (some [1, 2, 3])).trend ++ momentumInsight [1, 2, 3]) :=
  (insights_structure [1, 2, 3] (by decide)).1

/-- seriesDiff preserves the series length, as pandas diff does. -/
theorem seriesDiff_length (xs : List PyVal) : (seriesDiff xs).length = xs.length := by
  cases xs with
  | nil => rfl
  | cons x t =>
    simp [seriesDiff, List.length_zipWith]

/-- Subtraction of two fin-lifted series is the lift of the rational
difference series. -/
theorem zipWith_pvSub_map_fin : ∀ (u v : List ℚ),
    List.zipWith pvSub (u.map PyVal.fin) (v.map PyVal.fin)
      = (List.zipWith (fun a b : ℚ => a - b) u v).map PyVal.fin
  | [], _ => by simp
  | _ :: _, [] => by simp
  | a :: u, b :: v => by
    simp only [List.map_cons, List.zipWith_cons_cons]
    rw [zipWith_pvSub_map_fin u v]
    rfl

/-- seriesDiff of a lifted rational series: leading NaN, then the lifted
adjacent differences. -/
theorem seriesDiff_map_fin (c : ℚ) (t : List ℚ) :
    seriesDiff ((c :: t).map PyVal.fin)
      = PyVal.nan :: (List.zipWith (fun a b : ℚ => a - b) t (c :: t)).map PyVal.fin := by
  show PyVal.nan :: List.zipWith pvSub (t.map PyVal.fin) ((c :: t).map PyVal.fin) = _
  rw [zipWith_pvSub_map_fin]

/-- In a strictly increasing series every adjacent difference is positive. -/
theorem chain_qdiffs_pos : ∀ (l : List ℚ), List.Chain' (fun a b : ℚ => a < b) l →
    ∀ x ∈ List.zipWith (fun a b : ℚ => a - b) l.tail l, 0 < x
  | [], _, x, hx => by simp at hx
  | [_], _, x, hx => by simp at hx
  | a :: b :: t, h, x, hx => by
    rw [List.chain'_cons] at h
    simp only [List.tail_cons, List.zipWith_cons_cons] at hx
    rcases List.mem_cons.mp hx with rfl | hx2
    · exact sub_pos.mpr h.1
    · exact chain_qdiffs_pos (b :: t) h.2 x hx2

/-- zipWith over two maps of the same index list is a single map. -/
theorem zipWith_map_same {α β : Type} (F : β → β → β) (f g : α → β) :
    ∀ (r : List α), List.zipWith F (r.map f) (r.map g) = r.map (fun i => F (f i) (g i))
  | [] => rfl
  | a :: r => by
    simp only [List.map_cons, List.zipWith_cons_cons]
    rw [zipWith_map_same F f g r]

/-- pvAdd folding over a lifted rational list is the lifted sum. -/
theorem foldl_pvAdd_map_fin : ∀ (l : List ℚ) (a : ℚ),
    (l.map PyVal.fin).foldl pvAdd (.fin a) = .fin (a + l.sum)
  | [], a => by simp
  | x :: l, a => by
    simp only [List.map_cons, List.foldl_cons]
    rw [show pvAdd (.fin a) (.fin x) = .fin (a + x) from rfl, foldl_pvAdd_map_fin l (a + x),
      List.sum_cons, add_assoc]

/-- The window mean of a lifted rational list is its sum over its length. -/
theorem listMeanPv_map_fin (l : List ℚ) :
    listMeanPv (l.map PyVal.fin) = pvDiv (.fin l.sum) (.fin l.length) := by
  unfold listMeanPv
  rw [foldl_pvAdd_map_fin l 0, zero_add, List.length_map]

/-- The value calculate_rsi returns for a non-empty series: the rsi
formula applied to the gain and loss window means of the trailing window
(NaN when no full window exists). -/
theorem calculate_rsi_last (w : ℕ) (prices : List PyVal) (h : prices ≠ []) :
    calculate_rsi prices w =
      pvSub (.fin 100) (pvDiv (.fin 100) (pvAdd (.fin 1)
        (pvDiv
          (if w ≤ prices.length then
            listMeanPv ((((seriesDiff prices).map whereGtZero).drop (prices.length - w)).take w)
           else PyVal.nan)
          (if w ≤ prices.length then
            listMeanPv ((((seriesDiff prices).map whereLtZeroNeg).drop (prices.length - w)).take w)
           else PyVal.nan)))) := by
  have hn : prices.length ≠ 0 := fun h0 => h (List.length_eq_zero.mp h0)
  have hs : prices.length - 1 + 1 = prices.length :=
    Nat.succ_pred_eq_of_pos (Nat.pos_of_ne_zero hn)
  have hgl : ((seriesDiff prices).map whereGtZero).length = prices.length := by
    rw [List.length_map, seriesDiff_length]
  have hll : ((seriesDiff prices).map whereLtZeroNeg).length = prices.length := by
    rw [List.length_map, seriesDiff_length]
  unfold calculate_rsi
  unfold rollingMean
  rw [hgl, hll, zipWith_map_same, List.map_map, getLast?_map_range _ _ hn]
  simp only [Function.comp]
  rw [hs]

/-- The length of calculate_sma output equals the input length. -/
theorem calculate_sma_length (xs : List PyVal) (k : ℕ) :
    (calculate_sma xs k).length = xs.length := by
  simp [calculate_sma, rollingMean]

/-- With a full window available, the SMA slot holds the trailing window
mean of the closes. -/
theorem smaValueOf_window (closes : List ℚ) (k : ℕ) (hk : k ≠ 0)
    (hlen : k ≤ closes.length) (hne : closes ≠ []) :
    smaValueOf closes k = .fin ((closes.drop (closes.length - k)).sum / k) := by
  have hmapne : closes.map PyVal.fin ≠ [] := by simpa using hne
  have hdroplen : (closes.drop (closes.length - k)).length = k := by
    rw [List.length_drop]
    omega
  have hlast : (calculate_sma (closes.map PyVal.fin) k).getLastD PyVal.nan
      = .fin ((closes.drop (closes.length - k)).sum / k) := by
    show (rollingMean k (closes.map PyVal.fin)).getLastD PyVal.nan = _
    rw [rollingMean_getLastD k _ hmapne, List.length_map,
      if_pos hlen, ← List.map_drop, ← List.map_take,
      List.take_of_length_le (le_of_eq hdroplen), listMeanPv_map_fin, hdroplen]
    simp [pvDiv, Nat.cast_ne_zero.mpr hk]
  unfold smaValueOf
  rw [hlast]
  rw [if_pos]
  constructor
  · rw [calculate_sma_length, List.length_map]
    exact List.length_pos.mpr hne
  · rfl

/-- The last element survives dropping fewer elements than the length. -/
theorem getLast?_drop {α : Type} : ∀ (l : List α) (i : ℕ), i < l.length →
    (l.drop i).getLast? = l.getLast?
  | _, 0, _ => rfl
  | [], _ + 1, h => by simp at h
  | x :: t, i + 1, h => by
    rw [List.drop_succ_cons]
    have ht : i < t.length := by simpa using h
    rw [getLast?_drop t i ht]
    cases t with
    | nil => simp at ht
    | cons y t2 => exact (List.getLast?_cons_cons ..).symm

/-- Sum of a non-empty list all of whose elements are below M is below
length * M. -/
theorem sum_lt_length_mul (l : List ℚ) (M : ℚ) (hne : l ≠ [])
    (hall : ∀ x ∈ l, x < M) : l.sum < l.length * M := by
  induction l with
  | nil => exact absurd rfl hne
  | cons x t ih =>
    rw [List.sum_cons, List.length_cons]
    rcases eq_or_ne t [] with rfl | hte
    · simpa using hall x (by simp)
    · have ht := ih hte (fun y hy => hall y (List.mem_cons_of_mem x hy))
      have hx : x < M := hall x (List.mem_cons_self x t)
      have hexp : ((t.length + 1 : ℕ) : ℚ) * M = (t.length : ℚ) * M + M := by
        push_cast
        ring
      rw [hexp]
      linarith

/-- A strictly sorted list with at least two elements sums to strictly
less than length times its last element. -/
theorem pairwise_sum_lt (l : List ℚ) (h2 : 2 ≤ l.length)
    (hp : List.Pairwise (fun a b : ℚ => a < b) l) :
    l.sum < l.length * l.getLastD 0 := by
  have hne : l ≠ [] := by
    intro h0
    rw [h0] at h2
    simp at h2
  have hM : l.getLastD 0 = l.getLast hne := by
    rw [List.getLastD_eq_getLast?, List.getLast?_eq_getLast l hne]
    rfl
  have hsplit := List.dropLast_append_getLast hne
  have hdlen : l.dropLast.length = l.length - 1 := List.length_dropLast l
  have hdne : l.dropLast ≠ [] := by
    intro h0
    rw [h0] at hdlen
    simp at hdlen
    omega
  have hple : ∀ x ∈ l.dropLast, x < l.getLast hne := by
    intro x hx
    have hp2 : List.Pairwise (fun a b : ℚ => a < b) (l.dropLast ++ [l.getLast hne]) := by
      rw [hsplit]
      exact hp
    rw [List.pairwise_append] at hp2
    exact hp2.2.2 x hx (l.getLast hne) (by simp)
  have hsum : l.sum = l.dropLast.sum + l.getLast hne := by
    conv_lhs => rw [← hsplit]
    rw [List.sum_append]
    simp
  have hlen : l.length = l.dropLast.length + 1 := by
    conv_lhs => rw [← hsplit]
    rw [List.length_append]
    simp
  have hlt := sum_lt_length_mul l.dropLast (l.getLast hne) hdne hple
  rw [hsum, hM, hlen]
  have hexp : ((l.dropLast.length + 1 : ℕ) : ℚ) * l.getLast hne
      = (l.dropLast.length : ℚ) * l.getLast hne + l.getLast hne := by
    push_cast
    ring
  rw [hexp]
  linarith

/-- In a strictly increasing series, the trailing k-window mean is
strictly below the last close. -/
theorem trailing_mean_lt_last (closes : List ℚ) (k : ℕ) (h2 : 2 ≤ k)
    (hk : k ≤ closes.length)
    (hmono : List.Chain' (fun a b : ℚ => a < b) closes) :
    (closes.drop (closes.length - k)).sum / k < closes.getLastD 0 := by
  have hwlen : (closes.drop (closes.length - k)).length = k := by
    rw [List.length_drop]
    omega
  have hpw : List.Pairwise (fun a b : ℚ => a < b) (closes.drop (closes.length - k)) :=
    (List.chain'_iff_pairwise.mp hmono).sublist (List.drop_sublist _ _)
  have hlastw : (closes.drop (closes.length - k)).getLastD 0 = closes.getLastD 0 := by
    rw [List.getLastD_eq_getLast?, List.getLastD_eq_getLast?,
      getLast?_drop closes _ (by omega)]
  have hsum := pairwise_sum_lt (closes.drop (closes.length - k)) (by omega) hpw
  rw [hwlen, hlastw] at hsum
  rw [div_lt_iff₀ (by exact_mod_cast Nat.pos_of_ne_zero (by omega))]
  calc (closes.drop (closes.length - k)).sum
      < (k : ℚ) * closes.getLastD 0 := hsum
    _ = closes.getLastD 0 * k := mul_comm _ _

/-- When every adjacent difference is positive and at least 14 differences
exist, the trailing loss window is all zeros and the gain window mean is
positive, so RS = gain/0 = +inf and the RSI evaluates to exactly 100. -/
theorem calculate_rsi_all_gains (c : ℚ) (t : List ℚ) (h14 : 14 ≤ t.length)
    (hpos : ∀ x ∈ List.zipWith (fun a b : ℚ => a - b) t (c :: t), 0 < x) :
    calculate_rsi ((c :: t).map PyVal.fin) 14 = .fin 100 := by
  have hdqlen : (List.zipWith (fun a b : ℚ => a - b) t (c :: t)).length = t.length := by
    simp [List.length_zipWith]
  rw [calculate_rsi_last 14 _ (by simp)]
  simp only [List.length_map, List.length_cons]
  rw [if_pos (by omega), seriesDiff_map_fin c t]
  simp only [List.map_cons]
  rw [show whereGtZero PyVal.nan = PyVal.fin 0 from rfl]
  rw [show whereLtZeroNeg PyVal.nan = PyVal.fin 0 by simp [whereLtZeroNeg, pvLtC, pvNeg]]
  rw [show ((List.zipWith (fun a b : ℚ => a - b) t (c :: t)).map PyVal.fin).map whereGtZero
        = (List.zipWith (fun a b : ℚ => a - b) t (c :: t)).map PyVal.fin by
    rw [List.map_map]
    exact List.map_congr_left (fun d hd => by simp [whereGtZero, pvGtC, hpos d hd])]
  rw [show ((List.zipWith (fun a b : ℚ => a - b) t (c :: t)).map PyVal.fin).map whereLtZeroNeg
        = (List.zipWith (fun a b : ℚ => a - b) t (c :: t)).map (fun _ => PyVal.fin 0) by
    rw [List.map_map]
    exact List.map_congr_left (fun d hd => by
      have hnlt : ¬ (d < 0) := not_lt.mpr (le_of_lt (hpos d hd))
      simp [whereLtZeroNeg, pvLtC, pvNeg, hnlt])]
  rw [show t.length + 1 - 14 = (t.length - 14) + 1 by omega]
  simp only [List.drop_succ_cons]
  rw [← List.map_drop, ← List.map_take, ← List.map_drop, ← List.map_take]
  rw [if_pos (by omega : (14 : ℕ) ≤ t.length + 1)]
  set W := List.take 14 (List.drop (t.length - 14) (List.zipWith (fun a b : ℚ => a - b) t
    (c :: t))) with hW
  rw [show List.map (fun _ => PyVal.fin 0) W = (W.map (fun _ => (0 : ℚ))).map PyVal.fin by
    rw [List.map_map]
    rfl]
  rw [listMeanPv_map_fin, listMeanPv_map_fin]
  have hwslen : W.length = 14 := by
    rw [hW, List.length_take, List.length_drop, hdqlen, Nat.sub_sub_self h14]
    exact Nat.min_self 14
  have hWpos : ∀ x ∈ W, 0 < x := fun x hx =>
    hpos x (List.mem_of_mem_drop (List.mem_of_mem_take (hW ▸ hx)))
  have hWne : W ≠ [] := by
    intro h0
    rw [h0] at hwslen
    simp at hwslen
  have hWsum : 0 < W.sum := List.sum_pos W hWpos hWne
  have hzsum : (W.map (fun _ => (0 : ℚ))).sum = 0 := by simp
  have hzlen : (W.map (fun _ => (0 : ℚ))).length = 14 := by
    rw [List.length_map]
    exact hwslen
  rw [hwslen, hzsum, hzlen]
  rw [show pvDiv (PyVal.fin 0) (PyVal.fin ((14 : ℕ) : ℚ)) = PyVal.fin 0 by norm_num [pvDiv]]
  rw [show pvDiv (PyVal.fin W.sum) (PyVal.fin ((14 : ℕ) : ℚ))
        = PyVal.fin (W.sum / ((14 : ℕ) : ℚ)) by norm_num [pvDiv]]
  rw [show pvDiv (PyVal.fin (W.sum / ((14 : ℕ) : ℚ))) (PyVal.fin 0) = PyVal.pinf by
    have hq : 0 < W.sum / ((14 : ℕ) : ℚ) := div_pos hWsum (by norm_num)
    simp [pvDiv, ne_of_gt hq, hq, ne_of_gt hWsum, hWsum]]
  norm_num [pvAdd, pvDiv, pvSub]

/-- Executable check of strict adjacent increase, used to discharge the
monotonicity hypothesis on concrete lists. -/
def chainLtB : List ℚ → Bool
  | [] => true
  | [_] => true
  | a :: b :: t => decide (a < b) && chainLtB (b :: t)

/-- chainLtB soundly decides strict adjacent increase. -/
theorem chain'_of_chainLtB : ∀ l : List ℚ, chainLtB l = true →
    List.Chain' (fun a b : ℚ => a < b) l
  | [], _ => by simp
  | [_], _ => by simp
  | a :: b :: t, h => by
    rw [List.chain'_cons]
    rw [chainLtB, Bool.and_eq_true, decide_eq_true_eq] at h
    exact ⟨h.1, chain'_of_chainLtB (b :: t) h.2⟩

/-- C6 amended: for every series of at least 50 strictly increasing
closes, analyze_reit returns trend Bullish and an RSI of exactly 100: the
trailing 14-window mean loss is 0, so RS = mean_gain / 0 = +inf and
RSI = 100 - 100/(1 + inf) evaluates to exactly 100 (the original claim
said the RSI never exactly reaches 100). -/
theorem bullish_rsi_exactly_100 (closes : List ℚ) (h50 : 50 ≤ closes.length)
    (hmono : List.Chain' (fun a b : ℚ => a < b) closes) :
    (analyze_reit (some closes)).trend = "Bullish"
    ∧ (analyze_reit (some closes)).rsi = PyVal.fin 100 := by
  have hne : closes ≠ [] := by
    intro h0
    rw [h0] at h50
    simp at h50
  rw [analyze_reit_some closes hne]
  have hlen2 : 2 ≤ closes.length := by omega
  have h20v := smaValueOf_window closes 20 (by norm_num) (by omega) hne
  have h50v := smaValueOf_window closes 50 (by norm_num) (by omega) hne
  have hm20 := trailing_mean_lt_last closes 20 (by norm_num) (by omega) hmono
  have hm50 := trailing_mean_lt_last closes 50 (by norm_num) (by omega) hmono
  constructor
  · show trendOf closes = "Bullish"
    unfold trendOf
    rw [h20v, h50v]
    rw [List.getLastD_eq_getLast?] at hm20 hm50
    push_cast at hm20 hm50
    rw [show pvGtV (PyVal.fin (closes.getLastD 0))
          (PyVal.fin ((closes.drop (closes.length - 20)).sum / ((20 : ℕ) : ℚ))) = true by
      simp [pvGtV, hm20]]
    rw [show pvGtV (PyVal.fin (closes.getLastD 0))
          (PyVal.fin ((closes.drop (closes.length - 50)).sum / ((50 : ℕ) : ℚ))) = true by
      simp [pvGtV, hm50]]
    rfl
  · show rsiOf closes = PyVal.fin 100
    obtain ⟨c, t, rfl⟩ : ∃ c t, closes = c :: t := by
      cases closes with
      | nil => exact absurd rfl hne
      | cons c t => exact ⟨c, t, rfl⟩
    have h14 : 14 ≤ t.length := by
      rw [List.length_cons] at h50
      omega
    have hpos := chain_qdiffs_pos (c :: t) hmono
    unfold rsiOf
    rw [calculate_rsi_all_gains c t h14 hpos]
    decide

/-- A strictly increasing 50-close series: the integers 0 through 49. -/
def upList : List ℚ := (List.range 50).map (fun i => (i : ℚ))

/-- C6 counterexample: the closes 0,1,...,49 form a strictly increasing
series of 50 valid closes, yet analyze_reit reports an RSI of exactly
100, refuting the claim that the RSI never exactly equals 100. -/
theorem bullish_rsi_counterexample :
    upList.length = 50
    ∧ List.Chain' (fun a b : ℚ => a < b) upList
    ∧ (analyze_reit (some upList)).rsi = PyVal.fin 100 :=
  ⟨by decide, chain'_of_chainLtB upList (by decide), by decide⟩

/-- C6 witness: the amended theorem applied to the concrete series
0,1,...,49. -/
theorem bullish_rsi_exactly_100_witness :
    (analyze_reit (some upList)).trend = "Bullish"
    ∧ (analyze_reit (some upList)).rsi = PyVal.fin 100 :=
  bullish_rsi_exactly_100 upList (by decide) (chain'_of_chainLtB upList (by decide))

/-- Python truthiness of a nullable float field: None and 0.0 are falsy.
Used by src/main.py lines 83, 87, 94 and src/data_fetcher.py lines
283-287. -/
def truthyQ : Option ℚ → Bool
  | none => false
  | some q => decide (q ≠ 0)

/-- High-yield insight text (src/main.py line 84). -/
def highYieldMsg (q : ℚ) : String := "High yield (" ++ toString q ++ "%)"

/-- Deep-discount insight text (src/main.py line 89). -/
def deepDiscountMsg (q : ℚ) : String := "Deep discount to NAV (" ++ toString q ++ "x)"

/-- Premium insight text (src/main.py line 91). -/
def premiumMsg (q : ℚ) : String := "Premium to NAV (" ++ toString q ++ "x)"

/-- High-gearing insight text (src/main.py line 96). -/
def highGearingMsg (q : ℚ) : String := "High gearing (" ++ toString q ++ "%)"

/-- Conservative-gearing insight text (src/main.py line 98). -/
def conservativeGearingMsg (q : ℚ) : String := "Conservative gearing (" ++ toString q ++ "%)"

/-- Embeds the fundamental-insight block of main (src/main.py lines
80-98): starting from the technical insights, append the yield, NAV and
gearing assessments, each guarded by the truthiness of its field. -/
def fundamentalInsights (tech : List String) (dy pnav gearing : Option ℚ) : List String :=
  ((tech
    ++ (if truthyQ dy && pvGtC (.fin (dy.getD 0)) 7 then [highYieldMsg (dy.getD 0)] else []))
    ++ (if truthyQ pnav then
          (if pvLtC (.fin (pnav.getD 0)) 0.8 then [deepDiscountMsg (pnav.getD 0)]
           else if pvGtC (.fin (pnav.getD 0)) 1.3 then [premiumMsg (pnav.getD 0)] else [])
        else []))
    ++ (if truthyQ gearing then
          (if pvGtC (.fin (gearing.getD 0)) 45 then [highGearingMsg (gearing.getD 0)]
           else if pvLtC (.fin (gearing.getD 0)) 35 then [conservativeGearingMsg (gearing.getD 0)]
           else [])
        else [])

/-- C7 counterexample: an instrument with non-null fields yield 8,
P/NAV 0.7 and gearing 0.0 receives no gearing insight at all, although
the claim requires the conservative-gearing insight whenever
gearing_ratio < 35: the Python truthiness guard skips a 0.0 field. -/
theorem fundamental_insights_counterexample :
    fundamentalInsights [] (some 8) (some 0.7) (some 0)
        = [highYieldMsg 8, deepDiscountMsg 0.7]
    ∧ (0 : ℚ) < 35
    ∧ conservativeGearingMsg 0 ∉ fundamentalInsights [] (some 8) (some 0.7) (some 0) := by
  refine ⟨by decide, by decide, by decide⟩

/-- C7 amended: for non-null fundamental fields the insights are the
technical insights followed by the high-yield insight when yield > 7,
then the deep-discount insight when P/NAV is nonzero and < 0.8 else the
premium insight when P/NAV > 1.3, then the high-gearing insight when
gearing > 45 else the conservative-gearing insight when gearing is
nonzero and < 35, in that fixed order (a 0.0 field is Python-falsy and
yields no NAV/gearing insight); in particular yield 8, P/NAV 0.7 and
gearing 50 end the list with the high-yield, deep-discount and
high-gearing messages in that order. -/
theorem fundamental_insights_amended :
    (∀ (tech : List String) (dy pn g : ℚ),
      fundamentalInsights tech (some dy) (some pn) (some g) =
        tech
        ++ (if 7 < dy then [highYieldMsg dy] else [])
        ++ (if pn ≠ 0 ∧ pn < 0.8 then [deepDiscountMsg pn]
            else if 1.3 < pn then [premiumMsg pn] else [])
        ++ (if 45 < g then [highGearingMsg g]
            else if g ≠ 0 ∧ g < 35 then [conservativeGearingMsg g] else []))
    ∧ fundamentalInsights [] (some 8) (some 0.7) (some 50)
        = [highYieldMsg 8, deepDiscountMsg 0.7, highGearingMsg 50] := by
  constructor
  · intro tech dy pn g
    unfold fundamentalInsights
    simp only [Option.getD_some, truthyQ, pvGtC, pvLtC, Bool.and_eq_true, decide_eq_true_eq]
    have h7z : 7 < dy → dy ≠ 0 := fun h7 h0 => by rw [h0] at h7; norm_num at h7
    split_ifs <;> simp_all <;> linarith
  · decide

/-- The slice of an instrument record the aggregation reads: the sector
(absent when the key is missing) and the three nullable fundamental
fields (src/main.py lines 62-78). -/
structure InstRecord where
  sector : Option String
  dividend_yield : Option ℚ
  price_to_nav : Option ℚ
  gearing_ratio : Option ℚ
deriving DecidableEq

/-- Embeds reit.get('sector', 'Other') from src/data_fetcher.py line 272. -/
def recSector (r : InstRecord) : String := r.sector.getD "Other"

/-- The per-sector accumulator dict value (src/data_fetcher.py lines
274-279). -/
structure SectorAcc where
  yields : List ℚ
  pnavs : List ℚ
  gearings : List ℚ
  count : ℕ
deriving DecidableEq

/-- The fresh accumulator a new sector starts from. -/
def emptyAcc : SectorAcc := ⟨[], [], [], 0⟩

/-- Embeds the truthiness-guarded append of src/data_fetcher.py lines
283-288. -/
def appendIfTruthy (l : List ℚ) (v : Option ℚ) : List ℚ :=
  if truthyQ v then l ++ [v.getD 0] else l

/-- One loop iteration of get_sector_summary over one record
(src/data_fetcher.py lines 281-288). -/
def tallyRec (a : SectorAcc) (r : InstRecord) : SectorAcc :=
  { yields := appendIfTruthy a.yields r.dividend_yield
    pnavs := appendIfTruthy a.pnavs r.price_to_nav
    gearings := appendIfTruthy a.gearings r.gearing_ratio
    count := a.count + 1 }

/-- Insertion-ordered dict update: tally r into the bucket keyed s,
creating the bucket at the end on first sight (Python dict semantics of
src/data_fetcher.py lines 272-288). -/
def insertTally : List (String × SectorAcc) → String → InstRecord → List (String × SectorAcc)
  | [], s, r => [(s, tallyRec emptyAcc r)]
  | (k, a) :: t, s, r =>
      if k = s then (k, tallyRec a r) :: t else (k, a) :: insertTally t s r

/-- The grouping loop of get_sector_summary (src/data_fetcher.py lines
269-288). -/
def buildSectors (recs : List InstRecord) : List (String × SectorAcc) :=
  recs.foldl (fun m r => insertTally m (recSector r) r) []

/-- The per-sector summary record (src/data_fetcher.py lines 292-298). -/
structure SectorStats where
  count : ℕ
  avg_yield : ℚ
  avg_pnav : ℚ
  avg_gearing : ℚ
deriving DecidableEq

/-- Embeds round(sum(l)/len(l), d) if l else 0 (src/data_fetcher.py lines
295-297 and src/main.py lines 117-119). -/
def avgRounded (l : List ℚ) (d : ℕ) : ℚ :=
  if l = [] then 0 else roundQ (l.sum / l.length) d

/-- The averaging pass of get_sector_summary over one accumulator
(src/data_fetcher.py lines 292-298). -/
def statsOf (a : SectorAcc) : SectorStats :=
  ⟨a.count, avgRounded a.yields 2, avgRounded a.pnavs 2, avgRounded a.gearings 1⟩

/-- Embeds get_sector_summary from src/data_fetcher.py lines 264-300. -/
def get_sector_summary (recs : List InstRecord) : List (String × SectorStats) :=
  (buildSectors recs).map (fun p => (p.1, statsOf p.2))

/-- The portfolio metrics record of src/main.py lines 116-120. -/
structure PortfolioMetrics where
  avg_yield : ℚ
  avg_pnav : ℚ
  avg_gearing : ℚ
deriving DecidableEq

/-- Embeds the truthiness-filtered comprehensions of src/main.py lines
112-114. -/
def fieldVals (recs : List InstRecord) (f : InstRecord → Option ℚ) : List ℚ :=
  (recs.filter (fun r => truthyQ (f r))).map (fun r => (f r).getD 0)

/-- Embeds the portfolio metrics computation of src/main.py lines
111-120. -/
def portfolioMetrics (recs : List InstRecord) : PortfolioMetrics :=
  ⟨avgRounded (fieldVals recs (fun r => r.dividend_yield)) 2,
   avgRounded (fieldVals recs (fun r => r.price_to_nav)) 2,
   avgRounded (fieldVals recs (fun r => r.gearing_ratio)) 1⟩

/-- Modelled from the spec (amended): the values entering an average are
the non-null and nonzero field values, in record order. -/
def specVals (recs : List InstRecord) (f : InstRecord → Option ℚ) : List ℚ :=
  ((recs.map f).filterMap id).filter (fun q => decide (q ≠ 0))

/-- Modelled from the spec: the arithmetic mean of the qualifying values
rounded to d decimals, reported as 0 when no value qualifies. -/
def specMean (vals : List ℚ) (d : ℕ) : ℚ :=
  if vals = [] then 0 else roundQ (vals.sum / vals.length) d

/-- The code comprehension equals the spec-side qualifying-values list. -/
theorem fieldVals_eq_specVals (recs : List InstRecord) (f : InstRecord → Option ℚ) :
    fieldVals recs f = specVals recs f := by
  induction recs with
  | nil => rfl
  | cons r t ih =>
    cases hf : f r with
    | none =>
      simp only [fieldVals, specVals, List.map_cons, List.filter_cons, List.filterMap_cons,
        hf, truthyQ] at ih ⊢
      simpa using ih
    | some q =>
      by_cases hq : q = 0
      · subst hq
        simp only [fieldVals, specVals, List.map_cons, List.filter_cons, List.filterMap_cons,
          hf, truthyQ] at ih ⊢
        simpa using ih
      · simp only [fieldVals, specVals, List.map_cons, List.filter_cons, List.filterMap_cons,
          hf, truthyQ] at ih ⊢
        simp [hq, hf]
        simpa [hq] using ih

/-- Association-list lookup, the embedding of Python dict access. -/
def lookupStr {α : Type} (k : String) : List (String × α) → Option α
  | [] => none
  | (k2, v) :: t => if k2 = k then some v else lookupStr k t

/-- appendIfTruthy as a plain append. -/
theorem appendIfTruthy_eq (l : List ℚ) (v : Option ℚ) :
    appendIfTruthy l v = l ++ (if truthyQ v then [v.getD 0] else []) := by
  unfold appendIfTruthy
  by_cases h : truthyQ v <;> simp [h]

/-- fieldVals unfolds one record at a time. -/
theorem fieldVals_cons (r : InstRecord) (t : List InstRecord) (f : InstRecord → Option ℚ) :
    fieldVals (r :: t) f = (if truthyQ (f r) then [(f r).getD 0] else []) ++ fieldVals t f := by
  unfold fieldVals
  rw [List.filter_cons]
  by_cases h : truthyQ (f r) <;> simp [h]

/-- Folding tallyRec over a record list extends each accumulator field by
its truthiness-filtered values and the count by the list length. -/
theorem tallyFold_spec : ∀ (l : List InstRecord) (a : SectorAcc),
    l.foldl tallyRec a =
      ⟨a.yields ++ fieldVals l (fun r => r.dividend_yield),
       a.pnavs ++ fieldVals l (fun r => r.price_to_nav),
       a.gearings ++ fieldVals l (fun r => r.gearing_ratio),
       a.count + l.length⟩
  | [], a => by simp [fieldVals]
  | r :: t, a => by
    rw [List.foldl_cons, tallyFold_spec t (tallyRec a r)]
    show _ = (⟨_, _, _, _⟩ : SectorAcc)
    unfold tallyRec
    rw [appendIfTruthy_eq, appendIfTruthy_eq, appendIfTruthy_eq,
      fieldVals_cons, fieldVals_cons, fieldVals_cons]
    simp [List.append_assoc]
    omega

/-- Looking up the inserted key finds the tallied accumulator. -/
theorem lookupStr_insertTally_eq : ∀ (m : List (String × SectorAcc)) (s : String)
    (r : InstRecord),
    lookupStr s (insertTally m s r) = some (tallyRec ((lookupStr s m).getD emptyAcc) r)
  | [], s, r => by simp [insertTally, lookupStr]
  | (k, a) :: t, s, r => by
    by_cases h : k = s
    · subst h
      simp [insertTally, lookupStr]
    · simp [insertTally, lookupStr, h, lookupStr_insertTally_eq t s r]

/-- Looking up any other key is unchanged by an insertion. -/
theorem lookupStr_insertTally_ne : ∀ (m : List (String × SectorAcc)) (s : String)
    (r : InstRecord) (k2 : String), k2 ≠ s →
    lookupStr k2 (insertTally m s r) = lookupStr k2 m
  | [], s, r, k2, h => by
    have hsk : ¬ (s = k2) := fun h2 => h h2.symm
    simp [insertTally, lookupStr, hsk]
  | (k, a) :: t, s, r, k2, h => by
    by_cases hk : k = s
    · subst hk
      have hsk : ¬ (k = k2) := fun h2 => h h2.symm
      simp [insertTally, lookupStr, hsk]
    · simp only [insertTally, if_neg hk]
      by_cases hk2 : k = k2
      · subst hk2
        simp [lookupStr]
      · simp [lookupStr, hk2, lookupStr_insertTally_ne t s r k2 h]

/-- The grouping fold, characterized bucketwise: the bucket of sector s
collects exactly the records whose sector is s, folded into the starting
bucket (a fresh one when s was never seen). -/
theorem foldl_insert_lookup : ∀ (recs : List InstRecord) (m : List (String × SectorAcc))
    (s : String),
    lookupStr s (recs.foldl (fun m2 r => insertTally m2 (recSector r) r) m)
      = if (lookupStr s m).isSome = true
            ∨ recs.filter (fun r => decide (recSector r = s)) ≠ [] then
          some ((recs.filter (fun r => decide (recSector r = s))).foldl tallyRec
            ((lookupStr s m).getD emptyAcc))
        else none
  | [], m, s => by
    cases hm : lookupStr s m <;> simp [hm]
  | r :: t, m, s => by
    rw [List.foldl_cons, List.filter_cons]
    by_cases hs : recSector r = s
    · rw [foldl_insert_lookup t _ s]
      rw [show insertTally m (recSector r) r = insertTally m s r by rw [hs]]
      rw [lookupStr_insertTally_eq m s r]
      simp only [hs, decide_True, if_pos, Option.isSome_some, true_or, Option.getD_some,
        List.foldl_cons]
      rw [if_pos (by simp)]
    · rw [foldl_insert_lookup t _ s]
      rw [lookupStr_insertTally_ne m (recSector r) r s (fun h => hs h.symm)]
      simp only [hs, decide_False, if_neg, Bool.false_eq_true, if_false]

/-- Keys after an insertion: unchanged when present, appended when new. -/
theorem keys_insertTally : ∀ (m : List (String × SectorAcc)) (s : String) (r : InstRecord),
    (insertTally m s r).map Prod.fst =
      if s ∈ m.map Prod.fst then m.map Prod.fst else m.map Prod.fst ++ [s]
  | [], s, r => by simp [insertTally]
  | (k, a) :: t, s, r => by
    by_cases h : k = s
    · subst h
      simp [insertTally]
    · have hsk : ¬ (s = k) := fun h2 => h h2.symm
      simp only [insertTally, if_neg h, List.map_cons, keys_insertTally t s r]
      by_cases hmem : s ∈ t.map Prod.fst
      · simp [hmem, hsk]
      · simp [hmem, hsk]

/-- The grouping fold keeps dict keys distinct. -/
theorem nodupkeys_foldl : ∀ (recs : List InstRecord) (m : List (String × SectorAcc)),
    (m.map Prod.fst).Nodup →
    ((recs.foldl (fun m2 r => insertTally m2 (recSector r) r) m).map Prod.fst).Nodup
  | [], m, h => h
  | r :: t, m, h => by
    rw [List.foldl_cons]
    refine nodupkeys_foldl t _ ?_
    rw [keys_insertTally]
    by_cases hmem : recSector r ∈ m.map Prod.fst
    · simp only [hmem, if_pos]
      exact h
    · simp only [hmem, if_neg, Bool.false_eq_true, if_false]
      simp [List.nodup_append, h, hmem]

/-- With distinct keys, membership determines the lookup. -/
theorem lookupStr_of_mem_nodup {α : Type} : ∀ (m : List (String × α)),
    (m.map Prod.fst).Nodup → ∀ {k : String} {v : α}, (k, v) ∈ m → lookupStr k m = some v
  | [], _, _, _, hmem => by simp at hmem
  | (k2, v2) :: t, hnd, k, v, hmem => by
    rcases List.mem_cons.mp hmem with heq | hmem2
    · obtain ⟨rfl, rfl⟩ : k2 = k ∧ v2 = v := by
        have h1 := congrArg Prod.fst heq.symm
        have h2 := congrArg Prod.snd heq.symm
        exact ⟨h1, h2⟩
      simp [lookupStr]
    · have hk2 : k2 ≠ k := by
        intro h0
        subst h0
        rw [List.map_cons, List.nodup_cons] at hnd
        exact hnd.1 (List.mem_map.mpr ⟨(k2, v), hmem2, rfl⟩)
      rw [List.map_cons, List.nodup_cons] at hnd
      simp only [lookupStr, if_neg hk2]
      exact lookupStr_of_mem_nodup t hnd.2 hmem2

/-- Total record count held by a sector dict. -/
def sumCounts (m : List (String × SectorAcc)) : ℕ := (m.map (fun p => p.2.count)).sum

/-- Each insertion raises the total count by exactly one. -/
theorem sumCounts_insertTally : ∀ (m : List (String × SectorAcc)) (s : String)
    (r : InstRecord), sumCounts (insertTally m s r) = sumCounts m + 1
  | [], s, r => by simp [insertTally, sumCounts, tallyRec, emptyAcc]
  | (k, a) :: t, s, r => by
    by_cases h : k = s
    · subst h
      simp [insertTally, sumCounts, tallyRec]
      omega
    · simp only [insertTally, if_neg h]
      have ht := sumCounts_insertTally t s r
      simp [sumCounts] at ht ⊢
      omega

/-- The grouping loop adds one to the total count per record. -/
theorem sumCounts_foldl : ∀ (recs : List InstRecord) (m : List (String × SectorAcc)),
    sumCounts (recs.foldl (fun m2 r => insertTally m2 (recSector r) r) m)
      = sumCounts m + recs.length
  | [], m => by simp
  | r :: t, m => by
    rw [List.foldl_cons, sumCounts_foldl t _, sumCounts_insertTally]
    simp
    omega

/-- C10: get_sector_summary puts every record in exactly one sector
bucket (the record's sector, "Other" when absent) and counts it there
whether or not its fundamental fields are null, so the counts over all
sectors sum to the length of the input list. -/
theorem sector_counts_total (recs : List InstRecord) :
    ((get_sector_summary recs).map (fun p => p.2.count)).sum = recs.length := by
  have h1 : ((get_sector_summary recs).map (fun p => p.2.count)).sum
      = sumCounts (buildSectors recs) := by
    unfold get_sector_summary sumCounts
    rw [List.map_map]
    rfl
  rw [h1]
  unfold buildSectors
  rw [sumCounts_foldl recs []]
  simp [sumCounts]

/-- C8 counterexample: two records in sector A with non-null dividend
yields 0.0 and 4.0 average to 4.0, both per sector and portfolio-wide,
because the truthiness guard drops the 0.0 value; the claimed mean over
non-null values would be round((0+4)/2, 2) = 2. -/
theorem averages_counterexample :
    get_sector_summary [⟨some "A", some 0, none, none⟩, ⟨some "A", some 4, none, none⟩]
        = [("A", ⟨2, 4, 0, 0⟩)]
    ∧ (portfolioMetrics [⟨some "A", some 0, none, none⟩,
        ⟨some "A", some 4, none, none⟩]).avg_yield = 4
    ∧ roundQ ((0 + 4) / 2) 2 = 2 := by
  refine ⟨by decide, by decide, by decide⟩

/-- C8 amended: the sector and portfolio averages are arithmetic means
over the instruments whose field is non-null AND nonzero (Python
truthiness excludes a 0.0 value exactly like a null), rounded to 2, 2
and 1 decimals; a bucket with no qualifying instrument reports 0, and
aggregating the empty list yields an empty sector summary and all
portfolio averages 0 with no division error. -/
theorem averages_amended :
    (∀ recs : List InstRecord,
      portfolioMetrics recs =
        ⟨specMean (specVals recs (fun r => r.dividend_yield)) 2,
         specMean (specVals recs (fun r => r.price_to_nav)) 2,
         specMean (specVals recs (fun r => r.gearing_ratio)) 1⟩)
    ∧ (∀ (recs : List InstRecord) (s : String) (st : SectorStats),
        (s, st) ∈ get_sector_summary recs →
          st.count = (recs.filter (fun r => decide (recSector r = s))).length
          ∧ st.avg_yield = specMean (specVals (recs.filter (fun r => decide (recSector r = s)))
              (fun r => r.dividend_yield)) 2
          ∧ st.avg_pnav = specMean (specVals (recs.filter (fun r => decide (recSector r = s)))
              (fun r => r.price_to_nav)) 2
          ∧ st.avg_gearing = specMean (specVals (recs.filter (fun r => decide (recSector r = s)))
              (fun r => r.gearing_ratio)) 1)
    ∧ get_sector_summary [] = []
    ∧ portfolioMetrics [] = ⟨0, 0, 0⟩ := by
  refine ⟨?_, ?_, rfl, rfl⟩
  · intro recs
    unfold portfolioMetrics
    rw [fieldVals_eq_specVals, fieldVals_eq_specVals, fieldVals_eq_specVals]
    rfl
  · intro recs s st hmem
    unfold get_sector_summary at hmem
    obtain ⟨⟨s2, a⟩, hp, heq⟩ := List.mem_map.mp hmem
    obtain ⟨rfl, rfl⟩ : s2 = s ∧ statsOf a = st :=
      ⟨congrArg Prod.fst heq, congrArg Prod.snd heq⟩
    have hlk : lookupStr s2 (buildSectors recs) = some a :=
      lookupStr_of_mem_nodup _ (nodupkeys_foldl recs [] (by simp)) hp
    have hchar := foldl_insert_lookup recs [] s2
    rw [show lookupStr s2 ([] : List (String × SectorAcc)) = none from rfl] at hchar
    simp only [Option.isSome_none, Bool.false_eq_true, false_or, Option.getD_none] at hchar
    unfold buildSectors at hlk
    rw [hchar] at hlk
    by_cases hfil : recs.filter (fun r => decide (recSector r = s2)) = []
    · rw [if_neg (by simp [hfil])] at hlk
      exact absurd hlk (by simp)
    · rw [if_pos hfil] at hlk
      have ha : (recs.filter (fun r => decide (recSector r = s2))).foldl tallyRec emptyAcc
          = a := Option.some_injective _ hlk
      rw [tallyFold_spec] at ha
      rw [← ha]
      unfold statsOf
      refine ⟨?_, ?_, ?_, ?_⟩ <;>
        simp [emptyAcc, fieldVals_eq_specVals, specMean, avgRounded]

/-- C8 witness: the amended theorem applied to a one-record portfolio in
sector B with yield 5, P/NAV 1 and gearing 40. -/
theorem averages_amended_witness :
    (⟨1, 5, 1, 40⟩ : SectorStats).count
        = ([(⟨some "B", some 5, some 1, some 40⟩ : InstRecord)].filter
            (fun r => decide (recSector r = "B"))).length
    ∧ (⟨1, 5, 1, 40⟩ : SectorStats).avg_yield
        = specMean (specVals ([(⟨some "B", some 5, some 1, some 40⟩ : InstRecord)].filter
            (fun r => decide (recSector r = "B"))) (fun r => r.dividend_yield)) 2
    ∧ (⟨1, 5, 1, 40⟩ : SectorStats).avg_pnav
        = specMean (specVals ([(⟨some "B", some 5, some 1, some 40⟩ : InstRecord)].filter
            (fun r => decide (recSector r = "B"))) (fun r => r.price_to_nav)) 2
    ∧ (⟨1, 5, 1, 40⟩ : SectorStats).avg_gearing
        = specMean (specVals ([(⟨some "B", some 5, some 1, some 40⟩ : InstRecord)].filter
            (fun r => decide (recSector r = "B"))) (fun r => r.gearing_ratio)) 1 :=
  averages_amended.2.1 [⟨some "B", some 5, some 1, some 40⟩] "B" ⟨1, 5, 1, 40⟩ (by decide)

/-- Removal of trailing whitespace, the backward \s* of the suffix
regex. -/
def dropTrailingWs (l : List Char) : List Char :=
  (l.reverse.dropWhile Char.isWhitespace).reverse

/-- Whether a character list ends with the given characters. -/
def endsWithChars (l suf : List Char) : Bool :=
  decide (l.reverse.take suf.length = suf.reverse)

/-- Embeds re.sub(r'\s*(reit|trust)$', '', name) from
src/data_fetcher.py line 179: remove one trailing "reit" or "trust"
(no preceding whitespace required) together with the whitespace run
before it.  The two alternatives cannot both match the same string. -/
def stripReitSuffix (l : List Char) : List Char :=
  if endsWithChars l "reit".data then dropTrailingWs (l.take (l.length - 4))
  else if endsWithChars l "trust".data then dropTrailingWs (l.take (l.length - 5))
  else l

/-- Embeds re.sub(r'[^\w\s]', '', name) from src/data_fetcher.py line
181: keep word characters (alphanumeric or underscore) and whitespace. -/
def removeSpecial (l : List Char) : List Char :=
  l.filter (fun c => c.isAlphanum || c == '_' || c.isWhitespace)

/-- One step of word splitting: a whitespace character opens a new
(possibly empty) word, any other character extends the current one. -/
def pushChar (c : Char) (acc : List (List Char)) : List (List Char) :=
  if c.isWhitespace then [] :: acc
  else
    match acc with
    | [] => [[c]]
    | w :: rest => (c :: w) :: rest

/-- The whitespace-separated words of a character list, empties
discarded, as Python str.split() produces. -/
def wordsOf (l : List Char) : List String :=
  ((l.foldr pushChar []).map (fun w => (⟨w⟩ : String))).filter (fun w => decide (w ≠ ""))

/-- The whitespace-separated words of a string. -/
def splitWords (s : String) : List String := wordsOf s.data

/-- Embeds normalize_reit_name from src/data_fetcher.py lines 175-184:
lowercase, strip a trailing reit/trust suffix, drop special characters,
normalize whitespace. -/
def normalize_reit_name (s : String) : String :=
  String.intercalate " " (wordsOf (removeSpecial (stripReitSuffix (s.data.map Char.toLower))))

/-- Embeds len(set(name_key.split()) & set(key.split())) from
src/data_fetcher.py lines 216-218: the number of distinct words shared
by the two keys. -/
def overlapCount (a b : String) : ℕ :=
  ((splitWords a).dedup.filter (fun w => decide (w ∈ splitWords b))).length

/-- One iteration of the best-match loop of match_fundamental_data
(src/data_fetcher.py lines 214-222). -/
def overlapStep {α : Type} (nk : String) (acc : ℕ × Option α) (kv : String × α) :
    ℕ × Option α :=
  if overlapCount nk kv.1 > acc.1 then (overlapCount nk kv.1, some kv.2) else acc

/-- The best-match loop of match_fundamental_data (src/data_fetcher.py
lines 211-222), returning the best score and the best match. -/
def bestOverlap {α : Type} (nk : String) (fd : List (String × α)) : ℕ × Option α :=
  fd.foldl (overlapStep nk) (0, none)

/-- Embeds match_fundamental_data from src/data_fetcher.py lines
197-227: empty mapping gives None; an exact normalized-key hit returns
directly; otherwise the best word-overlap match is returned when its
score is at least 2, else None.  The record type is abstract because the
function never inspects the values. -/
def match_fundamental_data {α : Type} (reitName : String) (fd : List (String × α)) :
    Option α :=
  if fd.isEmpty then none
  else
    match lookupStr (normalize_reit_name reitName) fd with
    | some d => some d
    | none =>
      if 2 ≤ (bestOverlap (normalize_reit_name reitName) fd).1 then
        (bestOverlap (normalize_reit_name reitName) fd).2
      else none

/-- The best score only grows along the loop. -/
theorem overlapFold_fst_le {α : Type} (nk : String) : ∀ (fd : List (String × α))
    (acc : ℕ × Option α), acc.1 ≤ (fd.foldl (overlapStep nk) acc).1
  | [], _ => le_refl _
  | kv :: t, acc => by
    rw [List.foldl_cons]
    refine le_trans ?_ (overlapFold_fst_le nk t _)
    unfold overlapStep
    split_ifs with h
    · exact le_of_lt h
    · exact le_refl _

/-- Once the running best match is set, it stays set. -/
theorem overlapFold_isSome {α : Type} (nk : String) : ∀ (fd : List (String × α))
    (acc : ℕ × Option α), acc.2.isSome = true →
    ((fd.foldl (overlapStep nk) acc).2).isSome = true
  | [], _, h => h
  | kv :: t, acc, h => by
    rw [List.foldl_cons]
    refine overlapFold_isSome nk t _ ?_
    unfold overlapStep
    split_ifs with h2
    · rfl
    · exact h

/-- A strictly improved best score comes with a best match. -/
theorem overlapFold_isSome_of_lt {α : Type} (nk : String) : ∀ (fd : List (String × α))
    (acc : ℕ × Option α), acc.1 < (fd.foldl (overlapStep nk) acc).1 →
    ((fd.foldl (overlapStep nk) acc).2).isSome = true
  | [], acc, h => absurd h (lt_irrefl _)
  | kv :: t, acc, h => by
    rw [List.foldl_cons] at h ⊢
    by_cases h2 : overlapCount nk kv.1 > acc.1
    · refine overlapFold_isSome nk t _ ?_
      unfold overlapStep
      rw [if_pos h2]
      rfl
    · have hstep : overlapStep nk acc kv = acc := by
        unfold overlapStep
        rw [if_neg h2]
      rw [hstep] at h ⊢
      exact overlapFold_isSome_of_lt nk t acc h

/-- The final best score reaches 2 exactly when the starting score
already did or some key overlaps the name in at least 2 words. -/
theorem overlapFold_ge2_iff {α : Type} (nk : String) : ∀ (fd : List (String × α))
    (acc : ℕ × Option α),
    2 ≤ (fd.foldl (overlapStep nk) acc).1 ↔
      (2 ≤ acc.1 ∨ ∃ kv ∈ fd, 2 ≤ overlapCount nk kv.1)
  | [], acc => by simp
  | kv :: t, acc => by
    rw [List.foldl_cons, overlapFold_ge2_iff nk t _]
    unfold overlapStep
    split_ifs with h2
    · constructor
      · rintro (h | ⟨kv2, hm, ho⟩)
        · exact Or.inr ⟨kv, List.mem_cons_self kv t, h⟩
        · exact Or.inr ⟨kv2, List.mem_cons_of_mem kv hm, ho⟩
      · rintro (h | ⟨kv2, hm, ho⟩)
        · left
          omega
        · rcases List.mem_cons.mp hm with rfl | hm2
          · left
            exact ho
          · exact Or.inr ⟨kv2, hm2, ho⟩
    · constructor
      · rintro (h | ⟨kv2, hm, ho⟩)
        · exact Or.inl h
        · exact Or.inr ⟨kv2, List.mem_cons_of_mem kv hm, ho⟩
      · rintro (h | ⟨kv2, hm, ho⟩)
        · exact Or.inl h
        · rcases List.mem_cons.mp hm with rfl | hm2
          · left
            omega
          · exact Or.inr ⟨kv2, hm2, ho⟩

/-- C9 amended: match_fundamental_data returns a record exactly when the
normalized display name is literally a key of the mapping (the direct
dictionary hit of line 207, which fires even when only one word is
shared) or the normalized name shares at least 2 overlapping words with
some mapping key; otherwise it returns None.  In particular the name
"CapitaLand Integrated Commercial Trust" normalizes to and directly
matches the key "capitaland integrated commercial". -/
theorem match_fundamental_amended :
    (∀ (α : Type) (name : String) (fd : List (String × α)),
      (match_fundamental_data name fd).isSome = true ↔
        ((lookupStr (normalize_reit_name name) fd).isSome = true
          ∨ ∃ kv ∈ fd, 2 ≤ overlapCount (normalize_reit_name name) kv.1))
    ∧ match_fundamental_data "CapitaLand Integrated Commercial Trust"
        [("capitaland integrated commercial", "CICT")] = some "CICT" := by
  constructor
  · intro α name fd
    unfold match_fundamental_data
    by_cases hemp : fd.isEmpty
    · rw [if_pos hemp]
      have hnil : fd = [] := List.isEmpty_iff.mp hemp
      subst hnil
      simp [lookupStr]
    · rw [if_neg hemp]
      cases hlk : lookupStr (normalize_reit_name name) fd with
      | some d => simp [hlk]
      | none =>
        simp only [hlk, Option.isSome_none, Bool.false_eq_true, false_or]
        by_cases hge : 2 ≤ (bestOverlap (normalize_reit_name name) fd).1
        · rw [if_pos hge]
          constructor
          · intro _
            have hiff := (overlapFold_ge2_iff (normalize_reit_name name) fd (0, none)).mp hge
            rcases hiff with h0 | hex
            · simp at h0
            · exact hex
          · intro _
            have hge2 : 2 ≤ (fd.foldl (overlapStep (normalize_reit_name name))
                (0, none)).1 := hge
            exact overlapFold_isSome_of_lt (normalize_reit_name name) fd (0, none)
              (lt_of_lt_of_le (by norm_num) hge2)
        · rw [if_neg hge]
          simp only [Option.isSome_none, Bool.false_eq_true, false_iff]
          intro hex
          exact hge ((overlapFold_ge2_iff (normalize_reit_name name) fd (0, none)).mpr
            (Or.inr hex))
  · decide

/-- C9 counterexample: the display name "Suntec REIT" normalizes to the
single word "suntec" and shares only 1 word with the mapping key
"suntec", yet match_fundamental_data returns the record through the
direct dictionary hit, refuting the claim that a record is returned only
with at least 2 overlapping words. -/
theorem match_fundamental_counterexample :
    match_fundamental_data "Suntec REIT" [("suntec", "Suntec")] = some "Suntec"
    ∧ overlapCount (normalize_reit_name "Suntec REIT") "suntec" = 1 := by
  refine ⟨by decide, by decide⟩

end SReits
